import Mathlib

/-!
Verification development for the NumNom table-extraction core.

This file gives a shallow embedding, in Lean, of the tokenizer, the column
matchers, the date normalizer, the column mapper, the dividend standardizer,
the table classifier and the scroll-and-collect loop of the repository, and
proves the stated testable properties about these embedded definitions.

Strings are modelled by Lean strings; character-level operations work on the
underlying character lists.  JavaScript `toLowerCase` is modelled by the
ASCII-only `Char.toLower` (the header vocabulary the matchers test for is
ASCII); characters outside the basic latin letters are left unchanged.
-/

/-- Whitespace class of the regular-expression engine, modelling the
character class used by the source in `split` and `trim`. -/
def jsIsSpace (c : Char) : Bool :=
  c = ' ' || c = '\t' || c = '\n' || c = '\r' || c = '\x0b' || c = '\x0c'

/-- Hyphen-or-underscore test, modelling the character class of the
replacement step in `tokenize`. -/
def isDashU (c : Char) : Bool :=
  c = '-' || c = '_'

/-- Replacement of hyphens and underscores by spaces, from
`replace(/[-_]/g, ' ')` in `tokenize`. -/
def dashSpace (c : Char) : Char :=
  if isDashU c then ' ' else c

/-- Insertion of a space between a lowercase letter and an uppercase letter,
modelling `replace(/([a-z])([A-Z])/g, '$1 $2')` in `tokenize`. -/
def camelSplit : List Char → List Char
  | [] => []
  | [c] => [c]
  | c1 :: c2 :: rest =>
    if c1.isLower && c2.isUpper then c1 :: ' ' :: camelSplit (c2 :: rest)
    else c1 :: camelSplit (c2 :: rest)

/-- Splitting of a character list at every whitespace character, producing
possibly empty segments.  Together with the nonempty filter below this
models `split(/\s+/).filter(Boolean)`. -/
def splitChar : List Char → List (List Char)
  | [] => [[]]
  | c :: rest =>
    if jsIsSpace c then [] :: splitChar rest
    else
      match splitChar rest with
      | [] => [[c]]
      | s :: ss => (c :: s) :: ss

/-- Nonempty whitespace-separated segments of a character list. -/
def jsWords (l : List Char) : List (List Char) :=
  (splitChar l).filter (fun w => !w.isEmpty)

/-- Insertion of an element into an insertion-ordered duplicate-free list,
modelling `Set.prototype.add`. -/
def setAdd (l : List (List Char)) (x : List Char) : List (List Char) :=
  if x ∈ l then l else l ++ [x]

/-- Construction of an insertion-ordered duplicate-free list from a list,
modelling `new Set(list)`. -/
def listToSet (l : List (List Char)) : List (List Char) :=
  l.foldl setAdd []

/-- Character-list version of `tokenize`: camel-case splitting, lowering,
dash replacement, whitespace splitting, empty-token filtering, and
conversion to a set. -/
def tokenizeL (l : List Char) : List (List Char) :=
  listToSet (jsWords (((camelSplit l).map Char.toLower).map dashSpace))

/-- Tokenizes a string by normalizing and splitting into words, modelling
`tokenize` from the shared utilities.  The resulting set is represented as
the insertion-ordered duplicate-free list of its elements. -/
def tokenize (str : String) : List String :=
  (tokenizeL str.data).map String.mk

/-- Membership of a token in the token set of a string, modelling
`tokenize(name).has(tok)`. -/
def hasTok (name tok : String) : Bool :=
  (tokenize name).contains tok

/-- Matches an ex-dividend date column: has `ex` or `xd`. -/
def isExDateColumn (name : String) : Bool :=
  hasTok name "ex" || hasTok name "xd"

/-- Matches a dividend amount column: has `amount`, `amt` or `dividend`. -/
def isAmountColumn (name : String) : Bool :=
  hasTok name "amount" || hasTok name "amt" || hasTok name "dividend"

/-- Matches a dividend indicator column: has `indicator`, or has `type`
together with `div` or `dividend`. -/
def isIndicatorColumn (name : String) : Bool :=
  if hasTok name "indicator" then true
  else if hasTok name "type" && (hasTok name "div" || hasTok name "dividend") then true
  else false

/-- Matches an announcement date column. -/
def isAnnouncementDateColumn (name : String) : Bool :=
  hasTok name "announced" || hasTok name "announcement" ||
    hasTok name "declared" || hasTok name "declaration"

/-- Matches a payment date column. -/
def isPaymentDateColumn (name : String) : Bool :=
  hasTok name "payment" || hasTok name "pay" || hasTok name "payable" || hasTok name "paid"

/-- Matches a description column. -/
def isDescriptionColumn (name : String) : Bool :=
  hasTok name "subject" || hasTok name "description"

/-- Matches an open price column. -/
def isOpenColumn (name : String) : Bool := hasTok name "open"

/-- Matches a close price column. -/
def isCloseColumn (name : String) : Bool := hasTok name "close"

/-- Matches a high price column. -/
def isHighColumn (name : String) : Bool := hasTok name "high"

/-- Matches a low price column. -/
def isLowColumn (name : String) : Bool := hasTok name "low"

/-- Matches a date column for price tables. -/
def isDateColumn (name : String) : Bool := hasTok name "date"

/-- Abstraction of an HTML table as the rows of its header region and the
rows of its body, each row being the list of trimmed cell texts. -/
structure HtmlTable where
  theadRows : List (List String)
  tbodyRows : List (List String)

/-- Tests whether a list of column names contains all four OHLC price
columns, modelling `hasAllPriceColumns`. -/
def hasAllPriceColumns (columnNames : List String) : Bool :=
  columnNames.any isOpenColumn && columnNames.any isCloseColumn &&
    columnNames.any isHighColumn && columnNames.any isLowColumn

/-- Tests whether a table has all OHLC price columns: all header-region rows
are scanned bottom-up, then the first five rows of the table are scanned
bottom-up, modelling `hasPriceColumns`. -/
def hasPriceColumns (t : HtmlTable) : Bool :=
  t.theadRows.reverse.any hasAllPriceColumns ||
    ((t.theadRows ++ t.tbodyRows).take 5).reverse.any hasAllPriceColumns

/-- Header cells of a table as selected by
`thead th, thead td, tr:first-child th, tr:first-child td`: all cells of the
header region followed by the cells of the first body row. -/
def headerCellsOf (t : HtmlTable) : List String :=
  t.theadRows.flatten ++ t.tbodyRows.headD []

/-- Tests whether a table has dividend columns: some header cell matches the
ex-date matcher and some header cell matches the amount matcher, modelling
`hasDividendColumns`. -/
def hasDividendColumns (t : HtmlTable) : Bool :=
  (headerCellsOf t).any isExDateColumn && (headerCellsOf t).any isAmountColumn

/-- Table types detected by the extension. -/
inductive TableType where
  | price
  | dividend
deriving DecidableEq, Repr

/-- Determines the type of a table from its columns, modelling
`getTableType`: price is checked before dividend. -/
def getTableType (t : HtmlTable) : Option TableType :=
  if hasPriceColumns t then some .price
  else if hasDividendColumns t then some .dividend
  else none

/-- Apostrophe character, written via its code point. -/
def apostrophe : Char := Char.ofNat 39

/-- Removal of leading and trailing whitespace, modelling `String.trim` of
the host language. -/
def jsTrim (l : List Char) : List Char :=
  ((l.dropWhile jsIsSpace).reverse.dropWhile jsIsSpace).reverse

/-- Numeric value of a run of decimal digits. -/
def digitsToNat (l : List Char) : Nat :=
  l.foldl (fun n c => n * 10 + (c.toNat - 48)) 0

/-- Parses a maximal run of decimal digits whose length lies between `lo`
and `hi`, modelling an anchored `\d` repetition of the source regexes. -/
def pDigits (lo hi : Nat) (l : List Char) : Option (Nat × List Char) :=
  let p := l.span Char.isDigit
  if lo ≤ p.1.length ∧ p.1.length ≤ hi then some (digitsToNat p.1, p.2) else none

/-- Parses one separator character drawn from the given set. -/
def pSep (cs : List Char) (l : List Char) : Option (List Char) :=
  match l with
  | c :: rest => if c ∈ cs then some rest else none
  | [] => none

/-- Parses a nonempty run of whitespace, modelling an anchored run of the
whitespace class. -/
def pSpaces1 (l : List Char) : Option (List Char) :=
  let p := l.span jsIsSpace
  if 1 ≤ p.1.length then some p.2 else none

/-- Parses a nonempty run of ASCII letters, modelling a case-insensitive
letter run of the source regexes. -/
def pAlpha1 (l : List Char) : Option (List Char × List Char) :=
  let p := l.span Char.isAlpha
  if 1 ≤ p.1.length then some p else none

/-- Consumes an optional comma. -/
def pOptComma (l : List Char) : List Char :=
  match l with
  | c :: rest => if c = ',' then rest else l
  | [] => l

/-- Month-name table of the date normalizer. -/
def MONTH_NAMES : List (String × Nat) :=
  [("jan", 1), ("january", 1), ("feb", 2), ("february", 2), ("mar", 3), ("march", 3),
   ("apr", 4), ("april", 4), ("may", 5), ("jun", 6), ("june", 6), ("jul", 7), ("july", 7),
   ("aug", 8), ("august", 8), ("sep", 9), ("sept", 9), ("september", 9), ("oct", 10),
   ("october", 10), ("nov", 11), ("november", 11), ("dec", 12), ("december", 12)]

/-- Month number of a textual month name, looked up after lowering. -/
def monthOf (name : List Char) : Option Nat :=
  MONTH_NAMES.lookup (String.mk (name.map Char.toLower))

/-- Converts a two-digit year to a four-digit year using the fixed cutoff of
fifty, modelling `twoDigitYearToFour`. -/
def twoDigitYearToFour (twoDigitYear : Nat) : Nat :=
  if twoDigitYear < 50 then 2000 + twoDigitYear else 1900 + twoDigitYear

/-- Number of days of a month in the proleptic Gregorian calendar, used to
model the rollover check performed through the host `Date` constructor. -/
def daysInMonth (year month : Nat) : Nat :=
  if month = 2 then
    if year % 4 = 0 ∧ (year % 100 ≠ 0 ∨ year % 400 = 0) then 29 else 28
  else if month = 4 ∨ month = 6 ∨ month = 9 ∨ month = 11 then 30
  else 31

/-- Creates a valid date triple or nothing, modelling `createValidDate`: the
year must lie in 1900 to 2100, the month in 1 to 12, the day in 1 to 31, and
building the date must not roll over into a different month, which for these
ranges is exactly the condition that the day not exceed the length of the
month. -/
def createValidDate (year month day : Nat) : Option (Nat × Nat × Nat) :=
  if 1900 ≤ year ∧ year ≤ 2100 ∧ 1 ≤ month ∧ month ≤ 12 ∧ 1 ≤ day ∧ day ≤ 31
      ∧ day ≤ daysInMonth year month then
    some (year, month, day)
  else none

/-- Two-digit zero padding. -/
def pad2 (n : Nat) : String :=
  if n < 10 then "0" ++ toString n else toString n

/-- Formats a date triple in the form YYYY-MM-DD, modelling `formatToISO`. -/
def formatToISO (d : Nat × Nat × Nat) : String :=
  toString d.1 ++ "-" ++ pad2 d.2.1 ++ "-" ++ pad2 d.2.2

/-- Validation and formatting shared by every branch of the date
normalizer. -/
def mkValidISO (year month day : Nat) : Option String :=
  (createValidDate year month day).map formatToISO

/-- First branch of the date normalizer, for the anchored ISO-like pattern:
four digits, a dash-or-slash separator, one or two digits, a dash-or-slash
separator, one or two digits. -/
def tryIsoFormat (l : List Char) : Option String := do
  let (y, r1) ← pDigits 4 4 l
  let r2 ← pSep ['-', '/'] r1
  let (m, r3) ← pDigits 1 2 r2
  let r4 ← pSep ['-', '/'] r3
  let (d, r5) ← pDigits 1 2 r4
  guard (r5 = [])
  mkValidISO y m d

/-- Second branch of the date normalizer, for the anchored case-insensitive
pattern `([a-z]+)\s+(\d1,2),?\s+(\d4)`. -/
def tryTextMonthFirst (l : List Char) : Option String := do
  let (name, r1) ← pAlpha1 l
  let r2 ← pSpaces1 r1
  let (d, r3) ← pDigits 1 2 r2
  let r4 ← pSpaces1 (pOptComma r3)
  let (y, r5) ← pDigits 4 4 r4
  guard (r5 = [])
  let month ← monthOf name
  mkValidISO y month d

/-- Third branch of the date normalizer, for the anchored pattern
`(\d1,2)\s+([a-z]+)\s+(\d4)`. -/
def tryTextDayFirst (l : List Char) : Option String := do
  let (d, r1) ← pDigits 1 2 l
  let r2 ← pSpaces1 r1
  let (name, r3) ← pAlpha1 r2
  let r4 ← pSpaces1 r3
  let (y, r5) ← pDigits 4 4 r4
  guard (r5 = [])
  let month ← monthOf name
  mkValidISO y month d

/-- Core of the fourth branch, for `(\d1,2)\s+([a-z]+)\s+` followed by an
apostrophe and a two-digit year. -/
def tryTwoDigitCore (l : List Char) : Option String := do
  let (d, r1) ← pDigits 1 2 l
  let r2 ← pSpaces1 r1
  let (name, r3) ← pAlpha1 r2
  let r4 ← pSpaces1 r3
  let r5 ← pSep [apostrophe] r4
  let (y2, r6) ← pDigits 2 2 r5
  guard (r6 = [])
  let month ← monthOf name
  mkValidISO (twoDigitYearToFour y2) month d

/-- Fourth branch of the date normalizer: the two-digit-year day-first
pattern with an optional leading three-letter weekday abbreviation. -/
def tryTwoDigitDayFirst (l : List Char) : Option String :=
  match pAlpha1 l with
  | some (w, r1) =>
    if w.length = 3 then do
      let r2 ← pSpaces1 r1
      tryTwoDigitCore r2
    else none
  | none => tryTwoDigitCore l

/-- Fifth branch of the date normalizer, for the anchored pattern
`([a-z]+)\s+(\d1,2),?\s+` followed by an apostrophe and a two-digit year. -/
def tryTwoDigitMonthFirst (l : List Char) : Option String := do
  let (name, r1) ← pAlpha1 l
  let r2 ← pSpaces1 r1
  let (d, r3) ← pDigits 1 2 r2
  let r4 ← pSpaces1 (pOptComma r3)
  let r5 ← pSep [apostrophe] r4
  let (y2, r6) ← pDigits 2 2 r5
  guard (r6 = [])
  let month ← monthOf name
  mkValidISO (twoDigitYearToFour y2) month d

/-- Sixth branch of the date normalizer, for the anchored numeric pattern
`(\d1,2)[/.](\d1,2)[/.](\d4)`: a first component above twelve together with
a second component of at most twelve forces day-first order, and otherwise
the month-first reading is used. -/
def tryNumeric (l : List Char) : Option String := do
  let (f, r1) ← pDigits 1 2 l
  let r2 ← pSep ['/', '.'] r1
  let (s, r3) ← pDigits 1 2 r2
  let r4 ← pSep ['/', '.'] r3
  let (y, r5) ← pDigits 4 4 r4
  guard (r5 = [])
  (if f > 12 ∧ s ≤ 12 then mkValidISO y s f else none) <|> mkValidISO y f s

/-- Parses a date string and returns it in the form YYYY-MM-DD, modelling
`parseDateToISO`: blank or dash input yields the empty string, the format
branches are tried in the fixed source order, and if every branch fails the
sentinel `INVALID_DATE` is returned. -/
def parseDateToISO (dateStr : String) : String :=
  let trimmed := jsTrim dateStr.data
  if trimmed = [] ∨ trimmed = ['-'] then ""
  else
    match tryIsoFormat trimmed <|> tryTextMonthFirst trimmed <|> tryTextDayFirst trimmed
        <|> tryTwoDigitDayFirst trimmed <|> tryTwoDigitMonthFirst trimmed
        <|> tryNumeric trimmed with
    | some s => s
    | none => "INVALID_DATE"

/-- First unclaimed source column index whose header satisfies the matcher,
modelling the inner scan of the priority-based claiming loop. -/
def firstUnclaimed (claimed : List Nat) (matcher : String → Bool) (headers : List String) :
    Option Nat :=
  (List.range headers.length).find? (fun i => !claimed.contains i && matcher (headers.getD i ""))

/-- Adds a freshly claimed index, if any, to the claimed set, modelling
`claimed.add(i)`. -/
def claimUpdate (claimed : List Nat) : Option Nat → List Nat
  | some i => claimed ++ [i]
  | none => claimed

/-- Priority-based claiming over a list of matchers: for each matcher in
priority order, the first unclaimed matching column is claimed.  Returns the
per-matcher assignments together with the final claimed set, modelling the
outer loop of `mapDividendColumns` and `mapPriceColumns`. -/
def claimColumns (headers : List String) :
    List (String → Bool) → List Nat → List (Option Nat) × List Nat
  | [], claimed => ([], claimed)
  | m :: rest, claimed =>
    let r := firstUnclaimed claimed m headers
    let next := claimColumns headers rest (claimUpdate claimed r)
    (r :: next.1, next.2)

/-- Dividend column matchers in priority order, modelling
`COLUMN_MATCHERS`. -/
def dividendMatchers : List (String → Bool) :=
  [isExDateColumn, isAmountColumn, isIndicatorColumn, isAnnouncementDateColumn,
   isPaymentDateColumn, isDescriptionColumn]

/-- Mapping of standard dividend column names to source column indices plus
the unmatched extras, modelling `DividendColumnMapping`.  The required
fields are optional here because the source casts a partial record. -/
structure DividendColumnMapping where
  ex_date : Option Nat
  amount : Option Nat
  indicator : Option Nat
  announcement_date : Option Nat
  payment_date : Option Nat
  description : Option Nat
  extras : List Nat
deriving DecidableEq, Repr

/-- Maps source column headers to standard dividend columns using
priority-based claiming; all unclaimed columns go to extras.  Models
`mapDividendColumns`. -/
def mapDividendColumns (headers : List String) : DividendColumnMapping :=
  let r := claimColumns headers dividendMatchers []
  { ex_date := r.1.getD 0 none
    amount := r.1.getD 1 none
    indicator := r.1.getD 2 none
    announcement_date := r.1.getD 3 none
    payment_date := r.1.getD 4 none
    description := r.1.getD 5 none
    extras := (List.range headers.length).filter (fun i => !r.2.contains i) }

/-- Price column matchers in priority order, modelling
`PRICE_COLUMN_MATCHERS`. -/
def priceMatchers : List (String → Bool) :=
  [isDateColumn, isOpenColumn, isHighColumn, isLowColumn, isCloseColumn]

/-- Mapping of standard price column names to source column indices plus the
unmatched extras, modelling the partial `PriceColumnMapping`. -/
structure PriceColumnMapping where
  date : Option Nat
  openCol : Option Nat
  high : Option Nat
  low : Option Nat
  closeCol : Option Nat
  extras : List Nat
deriving DecidableEq, Repr

/-- Maps source column headers to standard price columns using
priority-based claiming, modelling `mapPriceColumns`. -/
def mapPriceColumns (headers : List String) : PriceColumnMapping :=
  let r := claimColumns headers priceMatchers []
  { date := r.1.getD 0 none
    openCol := r.1.getD 1 none
    high := r.1.getD 2 none
    low := r.1.getD 3 none
    closeCol := r.1.getD 4 none
    extras := (List.range headers.length).filter (fun i => !r.2.contains i) }

/-- Keeps the lowercase latin letters and digits, the character class
retained by `toSnakeCase`. -/
def isSnakeKeep (c : Char) : Bool :=
  c.isLower || c.isDigit

/-- Collapses runs of consecutive underscores to a single underscore; after
mapping every non-keep character to an underscore this models the
replacement of each maximal non-keep run by one underscore. -/
def collapseU : List Char → List Char
  | [] => []
  | [c] => [c]
  | c1 :: c2 :: rest =>
    if c1 = '_' ∧ c2 = '_' then collapseU (c2 :: rest)
    else c1 :: collapseU (c2 :: rest)

/-- Removes one leading underscore, if present. -/
def stripLeadU (l : List Char) : List Char :=
  match l with
  | c :: rest => if c = '_' then rest else l
  | [] => []

/-- Removes one leading and one trailing underscore, modelling the anchored
edge replacement of `toSnakeCase`. -/
def stripEdgeU (l : List Char) : List Char :=
  ((stripLeadU l).reverse |> stripLeadU).reverse

/-- Converts a header name to a snake-case key for the JSON extras,
modelling `toSnakeCase`: lower the string, replace every maximal run of
characters outside the lowercase-letter-or-digit class by one underscore,
then strip a leading and a trailing underscore. -/
def toSnakeCase (header : String) : String :=
  String.mk (stripEdgeU (collapseU ((header.data.map Char.toLower).map
    (fun c => if isSnakeKeep c then c else '_'))))

/-- Assignment into an insertion-ordered string-keyed record, modelling
property assignment on a plain object: an existing key is overwritten in
place, a new key is appended. -/
def objSet (m : List (String × String)) (k v : String) : List (String × String) :=
  match m with
  | [] => [(k, v)]
  | (k0, v0) :: rest => if k0 = k then (k, v) :: rest else (k0, v0) :: objSet rest k v

/-- Concatenation of a list of strings with a separator, modelling the
`join` method of host arrays. -/
def jsJoin (sep : String) : List String → String
  | [] => ""
  | [x] => x
  | x :: xs => x ++ sep ++ jsJoin sep xs

/-- Hexadecimal digit characters. -/
def hexDigits : List Char :=
  "0123456789abcdef".data

/-- JSON escaping of one character, as performed by the host JSON
serializer on string values. -/
def jsonEscapeChar (c : Char) : List Char :=
  if c = '"' then ['\\', '"']
  else if c = '\\' then ['\\', '\\']
  else if c = '\n' then ['\\', 'n']
  else if c = '\r' then ['\\', 'r']
  else if c = '\t' then ['\\', 't']
  else if c = '\x08' then ['\\', 'b']
  else if c = '\x0c' then ['\\', 'f']
  else if c.toNat < 32 then
    ['\\', 'u', '0', '0', hexDigits.getD (c.toNat / 16) '0', hexDigits.getD (c.toNat % 16) '0']
  else [c]

/-- JSON string literal for a string value. -/
def jsonQuote (s : String) : String :=
  "\"" ++ String.mk (s.data.flatMap jsonEscapeChar) ++ "\""

/-- Serialization of a string-keyed record to a JSON object string, in
insertion order, modelling the host JSON serializer on such records. -/
def jsonStringifyObj (m : List (String × String)) : String :=
  "\x7b" ++ jsJoin "," (m.map (fun p => jsonQuote p.1 ++ ":" ++ jsonQuote p.2)) ++ "\x7d"

/-- Builds the JSON string collecting the unmatched columns of a row,
modelling `buildExtrasJson`: empty result for no extras indices; a key with
a blank resolved header falls back to a positional label; entries with an
empty key or an empty value are omitted; an empty record serializes to the
empty string. -/
def buildExtrasJson (row headers : List String) (extrasIndexes : List Nat) : String :=
  if extrasIndexes.isEmpty then ""
  else
    let extras := extrasIndexes.foldl
      (fun (acc : List (String × String)) i =>
        let hd := headers.getD i ""
        let key := toSnakeCase (if hd = "" then "col_" ++ toString i else hd)
        let value := row.getD i ""
        if key ≠ "" ∧ value ≠ "" then objSet acc key value else acc) []
    if extras.length > 0 then jsonStringifyObj extras else ""

/-- Cell of a row at an optional source index: an absent index or an index
beyond the row yields the empty string, modelling `row[i] || ""` with a
possibly undefined index. -/
def cellAt (row : List String) : Option Nat → String
  | some i => row.getD i ""
  | none => ""

/-- Reorders a data row into the standardized dividend column order,
parsing the date columns, and appending the JSON extras when requested,
modelling `reorderDividendRow`. -/
def reorderDividendRow (row headers : List String) (mapping : DividendColumnMapping)
    (includeExtras : Bool) : List String :=
  [parseDateToISO (cellAt row mapping.ex_date), cellAt row mapping.amount]
    ++ (match mapping.indicator with
        | some i => [row.getD i ""]
        | none => [])
    ++ (match mapping.announcement_date with
        | some i => [parseDateToISO (row.getD i "")]
        | none => [])
    ++ (match mapping.payment_date with
        | some i => [parseDateToISO (row.getD i "")]
        | none => [])
    ++ (match mapping.description with
        | some i => [row.getD i ""]
        | none => [])
    ++ (if includeExtras ∧ ¬ mapping.extras.isEmpty then
          [buildExtrasJson row headers mapping.extras]
        else [])

/-- Builds the standardized dividend header row, modelling
`buildStandardizedHeader`: always `ex_date` and `amount` first, then the
optional columns that were mapped, then `extras` when any column is
unclaimed. -/
def buildStandardizedHeader (mapping : DividendColumnMapping) : List String :=
  ["ex_date", "amount"]
    ++ (if mapping.indicator.isSome then ["indicator"] else [])
    ++ (if mapping.announcement_date.isSome then ["announcement_date"] else [])
    ++ (if mapping.payment_date.isSome then ["payment_date"] else [])
    ++ (if mapping.description.isSome then ["description"] else [])
    ++ (if ¬ mapping.extras.isEmpty then ["extras"] else [])

/-- String-level trim. -/
def jsTrimS (s : String) : String := String.mk (jsTrim s.data)

/-- String-level lowering. -/
def jsLowerS (s : String) : String := String.mk (s.data.map Char.toLower)

/-- Indices of the columns to keep: a column is kept when some data row has,
at that index, a cell that is neither blank nor the literal text `view`
after lowering and trimming.  Models the first step of
`cleanDividendData`. -/
def columnsToKeep (headerRow : List String) (dataRows : List (List String)) : List Nat :=
  (List.range headerRow.length).filter (fun colIndex =>
    dataRows.any (fun row =>
      let cell := jsTrimS (jsLowerS (row.getD colIndex ""))
      cell ≠ "view" && cell ≠ ""))

/-- Projection of a row onto a list of kept column indices, with missing
cells becoming empty strings. -/
def filterCols (cols : List Nat) (row : List String) : List String :=
  cols.map (fun i => row.getD i "")

/-- Value used by the amount-filter step: the trimmed cell of a row at the
mapped amount index, or nothing when the amount index is absent or beyond
the row, modelling the optional-chaining access in the source. -/
def amountValueOf (amount : Option Nat) (row : List String) : Option String :=
  match amount with
  | none => none
  | some i => (row.get? i).map jsTrimS

/-- Amount-filter predicate of the dividend standardizer: a row is kept
unless its amount value is present and equal to the empty string or to a
dash. -/
def keepRow (amount : Option Nat) (row : List String) : Bool :=
  amountValueOf amount row ≠ some "" && amountValueOf amount row ≠ some "-"

/-- Cleans dividend table data, modelling the standardizing
`cleanDividendData`: drop view-only columns, map the remaining columns with
priority-based claiming, build the standardized header, drop rows without
an amount value, and reorder the surviving rows. -/
def cleanDividendData (data : List (List String)) : List (List String) :=
  match data with
  | [] => []
  | headerRow :: dataRows =>
    let cols := columnsToKeep headerRow dataRows
    let filteredHeader := filterCols cols headerRow
    let filteredRows := dataRows.map (filterCols cols)
    let mapping := mapDividendColumns filteredHeader
    let includeExtras := ¬ mapping.extras.isEmpty
    let standardHeader := buildStandardizedHeader mapping
    let standardizedRows :=
      (filteredRows.filter (keepRow mapping.amount)).map
        (fun row => reorderDividendRow row filteredHeader mapping includeExtras)
    standardHeader :: standardizedRows

/-- Hard cap on scroll steps, from the shared constants. -/
def MAX_SCROLL_ATTEMPTS : Nat := 200

/-- Cap on consecutive steps that add no new unique row, from the shared
constants. -/
def MAX_NO_NEW_ROWS_ATTEMPTS : Nat := 5

/-- Progress percentage cap during scrolling, from the shared constants. -/
def SCROLL_PROGRESS_CAP : Nat := 95

/-- Content hash of a row: its cells joined with a pipe, modelling
`hashRow`. -/
def hashRow (cells : List String) : String :=
  jsJoin "|" cells

/-- Assignment into the hash-keyed row map, modelling `Map.set`: an
existing key is overwritten in place, a new key is appended. -/
def mapSet (m : List (String × List String)) (k : String) (v : List String) :
    List (String × List String) :=
  match m with
  | [] => [(k, v)]
  | (k0, v0) :: rest => if k0 = k then (k, v) :: rest else (k0, v0) :: mapSet rest k v

/-- Merges every row of an extracted grid into the unique-row map keyed by
content hash. -/
def mergeGrid (m : List (String × List String)) (g : List (List String)) :
    List (String × List String) :=
  g.foldl (fun acc row => mapSet acc (hashRow row) row) m

/-- Environment of one simulated collection run: the grid extracted at each
step (step zero is the initial extraction), the grid of the final extraction
performed on reaching the bottom, the cancellation flag as observed at the
loop-top check of each step, the bottom test after each step, and the
rounded raw scroll percentage of each step. -/
structure ScrollEnv where
  extract : Nat → List (List String)
  finalExtract : Nat → List (List String)
  cancelledFlag : Nat → Bool
  atBottom : Nat → Bool
  rawProgress : Nat → Nat

/-- Download status values of progress updates. -/
inductive DownloadStatus where
  | scrolling
  | complete
  | errorStatus
  | cancelled
deriving DecidableEq, Repr

/-- Progress update sent through the progress callback; the payload field
of complete updates is not modelled. -/
structure ProgressEvent where
  progress : Nat
  rowsCollected : Nat
  status : DownloadStatus
  errorMsg : Option String
deriving DecidableEq, Repr

/-- State of the scroll-and-collect loop: the unique-row map, the row count
at the last growth, the consecutive no-new-row counter, and the number of
scroll attempts performed. -/
structure ScrollState where
  rows : List (String × List String)
  lastRowCount : Nat
  noNewRows : Nat
  attempts : Nat
deriving DecidableEq, Repr

/-- Outcome of the scroll-and-collect loop: cancellation (the source throws
there) or normal termination, each carrying the loop state. -/
inductive ScrollOutcome where
  | cancelledOutcome (st : ScrollState)
  | finished (st : ScrollState)
deriving DecidableEq, Repr

/-- One run of the scroll-and-collect loop of `scrollAndCollectRows`,
returning the emitted progress events and the outcome.  The fuel argument
only bounds the recursion; the loop guard itself is the conjunction of the
two counter checks of the source, so with fuel at least the hard cap minus
the attempts performed the model follows the source exactly.  Each
iteration checks the cancellation flag, scrolls, merges the freshly
extracted grid, emits a scrolling update, breaks after a final merge when
the bottom is reached, and otherwise updates the no-new-rows counter. -/
def collectLoop (env : ScrollEnv) : Nat → ScrollState → List ProgressEvent × ScrollOutcome
  | 0, st => ([], .finished st)
  | fuel + 1, st =>
    if st.attempts < MAX_SCROLL_ATTEMPTS ∧ st.noNewRows < MAX_NO_NEW_ROWS_ATTEMPTS then
      if env.cancelledFlag st.attempts then
        ([⟨0, st.rows.length, .cancelled, none⟩], .cancelledOutcome st)
      else
        let a := st.attempts + 1
        let rows2 := mergeGrid st.rows (env.extract a)
        let ev : ProgressEvent :=
          ⟨min SCROLL_PROGRESS_CAP (env.rawProgress a), rows2.length, .scrolling, none⟩
        if env.atBottom a then
          ([ev], .finished ⟨mergeGrid rows2 (env.finalExtract a), st.lastRowCount, st.noNewRows, a⟩)
        else
          let st2 : ScrollState :=
            if rows2.length = st.lastRowCount then
              ⟨rows2, st.lastRowCount, st.noNewRows + 1, a⟩
            else
              ⟨rows2, rows2.length, 0, a⟩
          let r := collectLoop env fuel st2
          (ev :: r.1, r.2)
    else ([], .finished st)

/-- Scroll-and-collect over a simulated environment, modelling
`scrollAndCollectRows` for a table with a scrollable container: the initial
extraction seeds the unique-row map and the counters start at zero. -/
def scrollAndCollectRows (env : ScrollEnv) : List ProgressEvent × ScrollOutcome :=
  let initRows := mergeGrid [] (env.extract 0)
  collectLoop env MAX_SCROLL_ATTEMPTS ⟨initRows, initRows.length, 0, 0⟩

/-- Full-download orchestration, modelling `handleFullDownload` for a valid
table index: the type-specific cleaning step is passed as a function (the
source dispatches on the detected table type to the dividend or the price
cleaner).  On normal termination the collected rows are filtered of fully
empty rows, cleaned, and a terminal complete update carrying the cleaned
row count is emitted; the cancellation throw is caught by the generic
handler, which emits a terminal error update with the message of the thrown
error and zero rows. -/
def handleFullDownloadEvents (env : ScrollEnv)
    (clean : List (List String) → List (List String)) : List ProgressEvent :=
  match scrollAndCollectRows env with
  | (evs, .cancelledOutcome _) => evs ++ [⟨0, 0, .errorStatus, some "Download cancelled"⟩]
  | (evs, .finished st) =>
    let allRows := st.rows.map (fun p => p.2)
    let filteredRows := allRows.filter (fun row => row.any (fun cell => cell ≠ ""))
    let cleaned := clean filteredRows
    evs ++ [⟨100, cleaned.length, .complete, none⟩]

/-- Test input with a two-digit year 49. -/
def dec49input : String := "01 Dec " ++ String.singleton apostrophe ++ "49"

/-- Test input with a two-digit year 50. -/
def dec50input : String := "01 Dec " ++ String.singleton apostrophe ++ "50"

/-- Expected extras JSON for the C8 vector. -/
def financialYearJson : String := "\x7b\"financial_year\":\"2024\"\x7d"

/-- Environment of a run that is cancelled at the loop-top check of the
second step: one row is rendered throughout and the flag rises after the
first step. -/
def cancelEnv : ScrollEnv :=
  ⟨fun _ => [["r"]], fun _ => [], fun t => decide (1 ≤ t), fun _ => false, fun _ => 0⟩

/-- Environment of a run that reaches the bottom at the first step while
the table holds a dividend header row and one data row whose amount cell is
a dash. -/
def progressDropEnv : ScrollEnv :=
  ⟨fun _ => [["Ex Date", "Amount"], ["2024-01-15", "-"]], fun _ => [],
   fun _ => false, fun t => decide (t = 1), fun _ => 0⟩

/-- Indices assigned to the six canonical dividend columns. -/
def dividendAssigned (m : DividendColumnMapping) : List Nat :=
  [m.ex_date, m.amount, m.indicator, m.announcement_date,
   m.payment_date, m.description].filterMap id

/-- Indices assigned to the five canonical price columns. -/
def priceAssigned (p : PriceColumnMapping) : List Nat :=
  [p.date, p.openCol, p.high, p.low, p.closeCol].filterMap id

/-- Keys of the unique-row map. -/
def keysOf (m : List (String × List String)) : List String :=
  m.map Prod.fst

/-- Key-level effect of one map assignment. -/
def addKey (ks : List String) (k : String) : List String :=
  if k ∈ ks then ks else ks ++ [k]

/-- Key-level effect of merging a grid. -/
def addKeys (ks : List String) (g : List (List String)) : List String :=
  g.foldl (fun acc row => addKey acc (hashRow row)) ks

/-- Invariant of the scroll loop: the unique-row keys are duplicate-free,
the last-growth counter equals the current map size, and the key set is
exactly the set of hashes extracted in steps up to the current attempt. -/
def ScrollInv (env : ScrollEnv) (st : ScrollState) : Prop :=
  (keysOf st.rows).Nodup ∧ st.lastRowCount = st.rows.length ∧
    ∀ x, x ∈ keysOf st.rows ↔ ∃ t, t ≤ st.attempts ∧ ∃ r ∈ env.extract t, hashRow r = x

/-- Environment of a region that renders the same single row at every
step. -/
def stableEnv : ScrollEnv :=
  ⟨fun _ => [["a"]], fun _ => [], fun _ => false, fun _ => false, fun _ => 0⟩

/-- Loop state at which the cancellation of `cancelEnv` is observed. -/
def cancelState : ScrollState := ⟨[("r", ["r"])], 1, 1, 1⟩

/-- Character-level shadow of joining token lists with a single space. -/
def joinL : List (List Char) → List Char
  | [] => []
  | [w] => w
  | w :: w2 :: ws => w ++ ' ' :: joinL (w2 :: ws)

/-- C1: the date normalizer satisfies the round-trip vectors of the
specification: the ISO, textual and numeric forms of 2024-01-15 all
normalize to `2024-01-15`; the day-first reading is forced when the first
numeric component exceeds twelve; a rolled-over month and day combination
yields the sentinel `INVALID_DATE`; blank and dash inputs yield the empty
string; and two-digit years expand with the cutoff of fifty, so the year 49
becomes 2049 and the year 50 becomes 1950. -/
theorem claim1_date_round_trip :
    parseDateToISO "2024-01-15" = "2024-01-15" ∧
    parseDateToISO "Jan 15, 2024" = "2024-01-15" ∧
    parseDateToISO "15/01/2024" = "2024-01-15" ∧
    parseDateToISO "02/30/2024" = "INVALID_DATE" ∧
    parseDateToISO "" = "" ∧
    parseDateToISO "-" = "" ∧
    parseDateToISO dec49input = "2049-12-01" ∧
    parseDateToISO dec50input = "1950-12-01" := by
  decide

/-- C3: for the header row `Ex Dividend Date`, `Amount`, the dividend
column mapper assigns the ex-date to index zero and the amount to index
one, because the ex-date matcher precedes the amount matcher in the
priority order and claims column zero first, even though that header also
satisfies the amount matcher through its `dividend` token. -/
theorem claim3_priority_resolution :
    (mapDividendColumns ["Ex Dividend Date", "Amount"]).ex_date = some 0 ∧
    (mapDividendColumns ["Ex Dividend Date", "Amount"]).amount = some 1 ∧
    isAmountColumn "Ex Dividend Date" = true := by
  decide

/-- C4: a table whose header row holds the cells Date, Open, High, Low and
Close is classified as a price table; removing any single one of the four
OHLC cells makes the table unclassified; and a row qualifies as a price
header exactly when it simultaneously satisfies the open, high, low and
close matchers. -/
theorem claim4_price_classification :
    getTableType ⟨[], [["Date", "Open", "High", "Low", "Close"]]⟩ = some .price ∧
    getTableType ⟨[], [["Date", "High", "Low", "Close"]]⟩ = none ∧
    getTableType ⟨[], [["Date", "Open", "Low", "Close"]]⟩ = none ∧
    getTableType ⟨[], [["Date", "Open", "High", "Close"]]⟩ = none ∧
    getTableType ⟨[], [["Date", "Open", "High", "Low"]]⟩ = none ∧
    (∀ names : List String, hasAllPriceColumns names = true ↔
      ((∃ c ∈ names, isOpenColumn c = true) ∧ (∃ c ∈ names, isHighColumn c = true) ∧
        (∃ c ∈ names, isLowColumn c = true) ∧ (∃ c ∈ names, isCloseColumn c = true))) := by
  refine ⟨by decide, by decide, by decide, by decide, by decide, fun names => ?_⟩
  simp only [hasAllPriceColumns, Bool.and_eq_true, List.any_eq_true]
  tauto

/-- C8: an unmatched header column `Financial Year` with a row value of
`2024` is serialized into the extras field of the standardized row as a
JSON object keyed by the snake-case form of the header, and a blank value
leaves the key entirely absent, so a row whose only extras value is blank
carries an empty extras field rather than an empty-string entry. -/
theorem claim8_extras_fidelity :
    cleanDividendData
        [["Ex Date", "Amount", "Financial Year"],
         ["2024-01-15", "1.50", "2024"],
         ["2024-02-15", "2.00", ""]] =
      [["ex_date", "amount", "extras"],
       ["2024-01-15", "1.50", financialYearJson],
       ["2024-02-15", "2.00", ""]] ∧
    toSnakeCase "Financial Year" = "financial_year" ∧
    buildExtrasJson ["2024-01-15", "1.50", "2024"] ["Ex Date", "Amount", "Financial Year"] [2] =
      financialYearJson ∧
    buildExtrasJson ["2024-02-15", "2.00", ""] ["Ex Date", "Amount", "Financial Year"] [2] = "" := by
  refine ⟨?_, by decide, by decide, by decide⟩
  decide

/-- C6 counterexample: in a run cancelled mid-loop the outcome that the
download handler propagates through the progress channel is not a distinct
cancellation outcome: after the cancelled update (which does carry the row
count collected so far) the generic error handler of the download
orchestration emits a terminal error-status update, because cancellation is
thrown as an ordinary error and caught by the same handler as any other
failure. -/
theorem claim6_counterexample :
    handleFullDownloadEvents cancelEnv cleanDividendData =
      [⟨0, 1, .scrolling, none⟩, ⟨0, 1, .cancelled, none⟩,
       ⟨0, 0, .errorStatus, some "Download cancelled"⟩] ∧
    (handleFullDownloadEvents cancelEnv cleanDividendData).getLast?.map
        (fun e => e.status) = some .errorStatus := by
  decide

/-- C7 counterexample: the terminal complete update can report fewer rows
than the last collecting update, because it reports the row count after
empty-row filtering and type-specific cleaning: here the collector reports
two unique rows while scrolling, but the dividend cleaner drops the data
row whose amount is a dash, so the complete update carries one row. -/
theorem claim7_counterexample :
    (handleFullDownloadEvents progressDropEnv cleanDividendData).map
        (fun e => (e.status, e.rowsCollected)) =
      [(.scrolling, 2), (.complete, 1)] := by
  decide

lemma firstUnclaimed_not_claimed {claimed : List Nat} {matcher : String → Bool}
    {headers : List String} {i : Nat}
    (h : firstUnclaimed claimed matcher headers = some i) : i ∉ claimed := by
  have hp := List.find?_some h
  simp only [Bool.and_eq_true, Bool.not_eq_true'] at hp
  simpa using hp.1

lemma claimColumns_fst_length (headers : List String) (ms : List (String → Bool))
    (claimed : List Nat) : (claimColumns headers ms claimed).1.length = ms.length := by
  induction ms generalizing claimed with
  | nil => simp [claimColumns]
  | cons m rest ih => simp [claimColumns, ih]

lemma claimColumns_snd_eq (headers : List String) (ms : List (String → Bool))
    (claimed : List Nat) :
    (claimColumns headers ms claimed).2 =
      claimed ++ (claimColumns headers ms claimed).1.filterMap id := by
  induction ms generalizing claimed with
  | nil => simp [claimColumns]
  | cons m rest ih =>
    simp only [claimColumns]
    cases h : firstUnclaimed claimed m headers with
    | none => simpa [claimUpdate, h] using ih claimed
    | some i => simp [claimUpdate, h, ih (claimed ++ [i])]

lemma claimColumns_snd_nodup (headers : List String) (ms : List (String → Bool))
    (claimed : List Nat) (h : claimed.Nodup) : ((claimColumns headers ms claimed).2).Nodup := by
  induction ms generalizing claimed with
  | nil => simpa [claimColumns]
  | cons m rest ih =>
    simp only [claimColumns]
    cases hf : firstUnclaimed claimed m headers with
    | none => simpa [claimUpdate, hf] using ih claimed h
    | some i =>
      have hi : i ∉ claimed := firstUnclaimed_not_claimed hf
      have : (claimed ++ [i]).Nodup := by
        simp [List.nodup_append, h, hi]
      simpa [claimUpdate, hf] using ih (claimed ++ [i]) this

lemma list_len6 {α : Type} (l : List α) (h : l.length = 6) :
    ∃ a b c d e f, l = [a, b, c, d, e, f] := by
  rcases l with _ | ⟨a, l⟩; · simp at h
  rcases l with _ | ⟨b, l⟩; · simp at h
  rcases l with _ | ⟨c, l⟩; · simp at h
  rcases l with _ | ⟨d, l⟩; · simp at h
  rcases l with _ | ⟨e, l⟩; · simp at h
  rcases l with _ | ⟨f, l⟩; · simp at h
  rcases l with _ | ⟨g, l⟩
  · exact ⟨a, b, c, d, e, f, rfl⟩
  · simp at h

lemma list_len5 {α : Type} (l : List α) (h : l.length = 5) :
    ∃ a b c d e, l = [a, b, c, d, e] := by
  rcases l with _ | ⟨a, l⟩; · simp at h
  rcases l with _ | ⟨b, l⟩; · simp at h
  rcases l with _ | ⟨c, l⟩; · simp at h
  rcases l with _ | ⟨d, l⟩; · simp at h
  rcases l with _ | ⟨e, l⟩; · simp at h
  rcases l with _ | ⟨f, l⟩
  · exact ⟨a, b, c, d, e, rfl⟩
  · simp at h

lemma dividendAssigned_eq (headers : List String) :
    dividendAssigned (mapDividendColumns headers) =
      (claimColumns headers dividendMatchers []).2 := by
  have hlen : (claimColumns headers dividendMatchers []).1.length = 6 :=
    claimColumns_fst_length headers dividendMatchers []
  obtain ⟨a, b, c, d, e, f, hr⟩ := list_len6 _ hlen
  have h2 := claimColumns_snd_eq headers dividendMatchers []
  simp only [List.nil_append] at h2
  rw [h2, hr]
  simp [dividendAssigned, mapDividendColumns, hr]

lemma priceAssigned_eq (headers : List String) :
    priceAssigned (mapPriceColumns headers) = (claimColumns headers priceMatchers []).2 := by
  have hlen : (claimColumns headers priceMatchers []).1.length = 5 :=
    claimColumns_fst_length headers priceMatchers []
  obtain ⟨a, b, c, d, e, hr⟩ := list_len5 _ hlen
  have h2 := claimColumns_snd_eq headers priceMatchers []
  simp only [List.nil_append] at h2
  rw [h2, hr]
  simp [priceAssigned, mapPriceColumns, hr]

/-- C2: column-claim exclusivity.  For every header row, under the fixed
dividend matcher list and under the fixed price matcher list, the produced
mapping assigns each source column index to at most one canonical column
(the assigned indices are pairwise distinct), and the extras list is
exactly the filter of all source indices that are claimed by no canonical
column. -/
theorem claim2_column_claim_exclusivity :
    ∀ headers : List String,
      ((dividendAssigned (mapDividendColumns headers)).Nodup ∧
        (mapDividendColumns headers).extras =
          (List.range headers.length).filter
            (fun i => !(dividendAssigned (mapDividendColumns headers)).contains i)) ∧
      ((priceAssigned (mapPriceColumns headers)).Nodup ∧
        (mapPriceColumns headers).extras =
          (List.range headers.length).filter
            (fun i => !(priceAssigned (mapPriceColumns headers)).contains i)) := by
  intro headers
  refine ⟨⟨?_, ?_⟩, ?_, ?_⟩
  · rw [dividendAssigned_eq]
    exact claimColumns_snd_nodup headers dividendMatchers [] List.nodup_nil
  · rw [dividendAssigned_eq]
    simp [mapDividendColumns]
  · rw [priceAssigned_eq]
    exact claimColumns_snd_nodup headers priceMatchers [] List.nodup_nil
  · rw [priceAssigned_eq]
    simp [mapPriceColumns]

lemma firstUnclaimed_amount_none (headers : List String)
    (h : ∀ c ∈ headers, isAmountColumn c = false) (claimed : List Nat) :
    firstUnclaimed claimed isAmountColumn headers = none := by
  apply List.find?_eq_none.mpr
  intro i hi
  simp only [List.mem_range] at hi
  have hmem : headers[i]?.getD "" ∈ headers := by
    rw [List.getElem?_eq_getElem hi]
    simp [List.getElem_mem hi]
  simp [h _ hmem]

lemma mapDividendColumns_amount_none (headers : List String)
    (h : ∀ c ∈ headers, isAmountColumn c = false) :
    (mapDividendColumns headers).amount = none := by
  simp [mapDividendColumns, dividendMatchers, claimColumns,
    firstUnclaimed_amount_none headers h]

/-- C10: if, after the view-column filtering step, no header cell of a
dividend grid satisfies the amount matcher, then the dividend cleaner drops
no data row at the amount-filter step, the amount field (position one) of
every emitted data row is the empty string, and the emitted header still
begins with `ex_date`, `amount`. -/
theorem claim10_unmatched_amount (headerRow : List String) (dataRows : List (List String))
    (h : ∀ c ∈ filterCols (columnsToKeep headerRow dataRows) headerRow,
      isAmountColumn c = false) :
    (cleanDividendData (headerRow :: dataRows)).length = dataRows.length + 1 ∧
    (∀ row ∈ (cleanDividendData (headerRow :: dataRows)).tail, row.getD 1 "" = "") ∧
    ((cleanDividendData (headerRow :: dataRows)).headD []).take 2 = ["ex_date", "amount"] := by
  have hamt : (mapDividendColumns (filterCols (columnsToKeep headerRow dataRows) headerRow)).amount
      = none := mapDividendColumns_amount_none _ h
  have hkeep : ∀ row,
      keepRow (mapDividendColumns (filterCols (columnsToKeep headerRow dataRows) headerRow)).amount
        row = true := by
    intro row
    rw [hamt]
    simp [keepRow, amountValueOf]
  refine ⟨?_, ?_, ?_⟩
  · simp [cleanDividendData, List.filter_eq_self.mpr fun row _ => hkeep row]
  · intro row hrow
    simp only [cleanDividendData, List.tail_cons, List.mem_map] at hrow
    obtain ⟨r0, _, hr0⟩ := hrow
    rw [← hr0]
    simp [reorderDividendRow, hamt, cellAt]
  · simp [cleanDividendData, buildStandardizedHeader]

lemma mergeGrid_cons (m : List (String × List String)) (row : List String)
    (rest : List (List String)) :
    mergeGrid m (row :: rest) = mergeGrid (mapSet m (hashRow row) row) rest := rfl

lemma addKeys_cons (ks : List String) (row : List String) (rest : List (List String)) :
    addKeys ks (row :: rest) = addKeys (addKey ks (hashRow row)) rest := rfl

lemma addKey_cons {k k0 : String} (ks : List String) (h : k ≠ k0) :
    addKey (k0 :: ks) k = k0 :: addKey ks k := by
  by_cases hk : k ∈ ks <;> simp [addKey, hk, h]

lemma keysOf_mapSet (m : List (String × List String)) (k : String) (v : List String) :
    keysOf (mapSet m k v) = addKey (keysOf m) k := by
  induction m with
  | nil => simp [mapSet, keysOf, addKey]
  | cons p rest ih =>
    obtain ⟨k0, v0⟩ := p
    by_cases h : k0 = k
    · subst h; simp [mapSet, keysOf, addKey]
    · simp only [mapSet, if_neg h, keysOf, List.map_cons]
      rw [addKey_cons _ (fun hkk => h hkk.symm)]
      exact congrArg (k0 :: ·) ih

lemma keysOf_mergeGrid (m : List (String × List String)) (g : List (List String)) :
    keysOf (mergeGrid m g) = addKeys (keysOf m) g := by
  induction g generalizing m with
  | nil => simp [mergeGrid, addKeys]
  | cons row rest ih =>
    rw [mergeGrid_cons, addKeys_cons, ih, keysOf_mapSet]

lemma length_eq_keysOf (m : List (String × List String)) :
    m.length = (keysOf m).length := by
  simp [keysOf]

lemma mem_addKey {ks : List String} {k x : String} :
    x ∈ addKey ks k ↔ x ∈ ks ∨ x = k := by
  by_cases h : k ∈ ks
  · simp only [addKey, if_pos h]
    constructor
    · exact Or.inl
    · rintro (hx | rfl)
      · exact hx
      · exact h
  · simp [addKey, if_neg h]

lemma addKey_nodup {ks : List String} {k : String} (h : ks.Nodup) :
    (addKey ks k).Nodup := by
  by_cases hk : k ∈ ks
  · simpa [addKey, hk] using h
  · simp [addKey, hk, List.nodup_append, h]

lemma length_le_addKey (ks : List String) (k : String) :
    ks.length ≤ (addKey ks k).length := by
  by_cases hk : k ∈ ks <;> simp [addKey, hk]

lemma addKey_eq_self {ks : List String} {k : String} (h : k ∈ ks) : addKey ks k = ks := by
  simp [addKey, h]

lemma mem_addKeys {ks : List String} {g : List (List String)} {x : String} :
    x ∈ addKeys ks g ↔ x ∈ ks ∨ ∃ r ∈ g, hashRow r = x := by
  induction g generalizing ks with
  | nil => simp [addKeys]
  | cons row rest ih =>
    simp only [addKeys, List.foldl_cons]
    rw [show List.foldl (fun acc row => addKey acc (hashRow row)) (addKey ks (hashRow row)) rest
        = addKeys (addKey ks (hashRow row)) rest from rfl, ih]
    simp only [mem_addKey, List.mem_cons]
    constructor
    · rintro ((hx | rfl) | ⟨r, hr, hh⟩)
      · exact Or.inl hx
      · exact Or.inr ⟨row, Or.inl rfl, rfl⟩
      · exact Or.inr ⟨r, Or.inr hr, hh⟩
    · rintro (hx | ⟨r, (rfl | hr), hh⟩)
      · exact Or.inl (Or.inl hx)
      · exact Or.inl (Or.inr hh.symm)
      · exact Or.inr ⟨r, hr, hh⟩

lemma addKeys_nodup {ks : List String} {g : List (List String)} (h : ks.Nodup) :
    (addKeys ks g).Nodup := by
  induction g generalizing ks with
  | nil => simpa [addKeys]
  | cons row rest ih =>
    simp only [addKeys, List.foldl_cons]
    exact ih (addKey_nodup h)

lemma length_le_addKeys (ks : List String) (g : List (List String)) :
    ks.length ≤ (addKeys ks g).length := by
  induction g generalizing ks with
  | nil => simp [addKeys]
  | cons row rest ih =>
    simp only [addKeys, List.foldl_cons]
    exact Nat.le_trans (length_le_addKey ks (hashRow row)) (ih (addKey ks (hashRow row)))

lemma addKeys_eq_self {ks : List String} {g : List (List String)}
    (h : ∀ r ∈ g, hashRow r ∈ ks) : addKeys ks g = ks := by
  induction g with
  | nil => simp [addKeys]
  | cons row rest ih =>
    simp only [addKeys, List.foldl_cons, addKey_eq_self (h row (List.mem_cons_self row rest))]
    exact ih fun r hr => h r (List.mem_cons_of_mem row hr)

lemma length_addKeys_eq (ks : List String) (g : List (List String)) :
    (addKeys ks g).length = ks.length ↔ ∀ r ∈ g, hashRow r ∈ ks := by
  induction g generalizing ks with
  | nil => simp [addKeys]
  | cons row rest ih =>
    simp only [addKeys, List.foldl_cons]
    by_cases hk : hashRow row ∈ ks
    · rw [addKey_eq_self hk,
        show List.foldl (fun acc row => addKey acc (hashRow row)) ks rest = addKeys ks rest
          from rfl, ih]
      simp only [List.mem_cons]
      constructor
      · rintro hall r (rfl | hr)
        · exact hk
        · exact hall r hr
      · intro hall r hr
        exact hall r (Or.inr hr)
    · have hlen : ks.length + 1 ≤
          (List.foldl (fun acc row => addKey acc (hashRow row)) (addKey ks (hashRow row))
            rest).length := by
        have h1 : (addKey ks (hashRow row)).length = ks.length + 1 := by
          simp [addKey, hk]
        have h2 := length_le_addKeys (addKey ks (hashRow row)) rest
        simp only [addKeys] at h2
        omega
      constructor
      · intro heq; omega
      · intro hall
        exact absurd (hall row (List.mem_cons_self row rest)) hk

lemma collectLoop_converges (env : ScrollEnv) (N : Nat)
    (hext : ∀ t, N < t → ∀ r ∈ env.extract t,
      ∃ s, s ≤ N ∧ ∃ r2 ∈ env.extract s, hashRow r2 = hashRow r)
    (hbot : ∀ t, env.atBottom t = false)
    (hcanc : ∀ t, env.cancelledFlag t = false) :
    ∀ fuel st, ScrollInv env st →
      ∃ st2, (collectLoop env fuel st).2 = .finished st2 ∧ ScrollInv env st2 ∧
        st2.attempts ≤
          max (st.attempts + (MAX_NO_NEW_ROWS_ATTEMPTS - st.noNewRows))
            (N + MAX_NO_NEW_ROWS_ATTEMPTS) := by
  intro fuel
  induction fuel with
  | zero =>
    intro st hinv
    exact ⟨st, rfl, hinv, by omega⟩
  | succ fuel ih =>
    intro st hinv
    by_cases hg : st.attempts < MAX_SCROLL_ATTEMPTS ∧ st.noNewRows < MAX_NO_NEW_ROWS_ATTEMPTS
    · rw [collectLoop, if_pos hg, hcanc st.attempts]
      simp only [Bool.false_eq_true, if_false, hbot (st.attempts + 1)]
      by_cases hsz :
          (mergeGrid st.rows (env.extract (st.attempts + 1))).length = st.lastRowCount
      · -- no new rows this step
        simp only [if_pos hsz]
        have hall : ∀ r ∈ env.extract (st.attempts + 1), hashRow r ∈ keysOf st.rows := by
          rw [← length_addKeys_eq (keysOf st.rows) (env.extract (st.attempts + 1))]
          rw [← keysOf_mergeGrid, ← length_eq_keysOf, ← length_eq_keysOf, hsz, hinv.2.1]
        have hkeys : keysOf (mergeGrid st.rows (env.extract (st.attempts + 1)))
            = keysOf st.rows := by
          rw [keysOf_mergeGrid, addKeys_eq_self hall]
        have hinv2 : ScrollInv env ⟨mergeGrid st.rows (env.extract (st.attempts + 1)),
            st.lastRowCount, st.noNewRows + 1, st.attempts + 1⟩ := by
          refine ⟨by rw [hkeys]; exact hinv.1, hsz.symm, fun x => ?_⟩
          dsimp only
          rw [hkeys]
          constructor
          · intro hx
            obtain ⟨t, ht, hr⟩ := (hinv.2.2 x).mp hx
            exact ⟨t, by omega, hr⟩
          · rintro ⟨t, ht, r, hr, rfl⟩
            rcases Nat.lt_or_ge t (st.attempts + 1) with h1 | h1
            · exact (hinv.2.2 _).mpr ⟨t, by omega, r, hr, rfl⟩
            · have : t = st.attempts + 1 := by omega
              subst this
              exact hall r hr
        obtain ⟨st2, hout, hinv3, hbnd⟩ := ih _ hinv2
        refine ⟨st2, hout, hinv3, ?_⟩
        have h5 : st.noNewRows < MAX_NO_NEW_ROWS_ATTEMPTS := hg.2
        dsimp only at hbnd
        simp only [MAX_NO_NEW_ROWS_ATTEMPTS] at h5 hbnd ⊢
        omega
      · -- new rows appeared this step
        simp only [if_neg hsz]
        have hinv2 : ScrollInv env ⟨mergeGrid st.rows (env.extract (st.attempts + 1)),
            (mergeGrid st.rows (env.extract (st.attempts + 1))).length, 0,
            st.attempts + 1⟩ := by
          refine ⟨?_, rfl, fun x => ?_⟩
          · rw [keysOf_mergeGrid]
            exact addKeys_nodup hinv.1
          · dsimp only
            rw [keysOf_mergeGrid, mem_addKeys]
            constructor
            · rintro (hx | ⟨r, hr, rfl⟩)
              · obtain ⟨t, ht, hr⟩ := (hinv.2.2 x).mp hx
                exact ⟨t, by omega, hr⟩
              · exact ⟨st.attempts + 1, le_refl _, r, hr, rfl⟩
            · rintro ⟨t, ht, r, hr, rfl⟩
              rcases Nat.lt_or_ge t (st.attempts + 1) with h1 | h1
              · exact Or.inl ((hinv.2.2 _).mpr ⟨t, by omega, r, hr, rfl⟩)
              · have : t = st.attempts + 1 := by omega
                subst this
                exact Or.inr ⟨r, hr, rfl⟩
        have ha : st.attempts + 1 ≤ N := by
          by_contra hcon
          have hN : N < st.attempts + 1 := by omega
          have hall : ∀ r ∈ env.extract (st.attempts + 1), hashRow r ∈ keysOf st.rows := by
            intro r hr
            obtain ⟨s, hs, r2, hr2, hh⟩ := hext (st.attempts + 1) hN r hr
            exact (hinv.2.2 _).mpr ⟨s, by omega, r2, hr2, hh⟩
          have : (mergeGrid st.rows (env.extract (st.attempts + 1))).length
              = st.lastRowCount := by
            rw [length_eq_keysOf, keysOf_mergeGrid, addKeys_eq_self hall,
              ← length_eq_keysOf, hinv.2.1]
          exact hsz this
        obtain ⟨st2, hout, hinv3, hbnd⟩ := ih _ hinv2
        refine ⟨st2, hout, hinv3, ?_⟩
        dsimp only at hbnd
        simp only [MAX_NO_NEW_ROWS_ATTEMPTS] at hbnd ⊢
        omega
    · rw [collectLoop, if_neg hg]
      exact ⟨st, rfl, hinv, by omega⟩

/-- C5: scroll-collection convergence.  If the simulated scrollable region
stops producing new unique rows after step N (every row extracted later has
the hash of a row already extracted by step N), the bottom is never reached
and no cancellation occurs, then the loop terminates normally within
N plus the no-new-rows cap many steps — strictly below the hard step cap
whenever that sum is below it — and the returned row set is deduplicated
(its keys are pairwise distinct) and is exactly the set of row hashes
extracted during the performed steps, independent of how often a given row
content was re-extracted. -/
theorem claim5_scroll_convergence (env : ScrollEnv) (N : Nat)
    (hext : ∀ t, N < t → ∀ r ∈ env.extract t,
      ∃ s, s ≤ N ∧ ∃ r2 ∈ env.extract s, hashRow r2 = hashRow r)
    (hbot : ∀ t, env.atBottom t = false)
    (hcanc : ∀ t, env.cancelledFlag t = false) :
    ∃ st2, (scrollAndCollectRows env).2 = .finished st2 ∧
      st2.attempts ≤ N + MAX_NO_NEW_ROWS_ATTEMPTS ∧
      (N + MAX_NO_NEW_ROWS_ATTEMPTS < MAX_SCROLL_ATTEMPTS →
        st2.attempts < MAX_SCROLL_ATTEMPTS) ∧
      (keysOf st2.rows).Nodup ∧
      (∀ x, x ∈ keysOf st2.rows ↔
        ∃ t, t ≤ st2.attempts ∧ ∃ r ∈ env.extract t, hashRow r = x) := by
  have hinv0 : ScrollInv env
      ⟨mergeGrid [] (env.extract 0), (mergeGrid [] (env.extract 0)).length, 0, 0⟩ := by
    refine ⟨?_, rfl, fun x => ?_⟩
    · rw [keysOf_mergeGrid]
      exact addKeys_nodup List.nodup_nil
    · dsimp only
      rw [keysOf_mergeGrid, mem_addKeys]
      simp [keysOf, Nat.le_zero]
  obtain ⟨st2, hout, hinv2, hbnd⟩ :=
    collectLoop_converges env N hext hbot hcanc MAX_SCROLL_ATTEMPTS _ hinv0
  refine ⟨st2, hout, ?_, ?_, hinv2.1, hinv2.2.2⟩
  · dsimp only at hbnd
    simp only [MAX_NO_NEW_ROWS_ATTEMPTS] at hbnd ⊢
    omega
  · intro hlt
    dsimp only at hbnd
    simp only [MAX_NO_NEW_ROWS_ATTEMPTS, MAX_SCROLL_ATTEMPTS] at hbnd hlt ⊢
    omega

/-- Witness for C5: the convergence theorem applied to the stable
environment with N equal to zero. -/
theorem claim5_witness :
    (∀ t, 0 < t → ∀ r ∈ stableEnv.extract t,
      ∃ s, s ≤ 0 ∧ ∃ r2 ∈ stableEnv.extract s, hashRow r2 = hashRow r) ∧
    (∀ t, stableEnv.atBottom t = false) ∧
    (∀ t, stableEnv.cancelledFlag t = false) ∧
    (∃ st2, (scrollAndCollectRows stableEnv).2 = .finished st2 ∧
      st2.attempts ≤ 0 + MAX_NO_NEW_ROWS_ATTEMPTS ∧
      (0 + MAX_NO_NEW_ROWS_ATTEMPTS < MAX_SCROLL_ATTEMPTS →
        st2.attempts < MAX_SCROLL_ATTEMPTS) ∧
      (keysOf st2.rows).Nodup ∧
      (∀ x, x ∈ keysOf st2.rows ↔
        ∃ t, t ≤ st2.attempts ∧ ∃ r ∈ stableEnv.extract t, hashRow r = x)) := by
  have h1 : ∀ t, 0 < t → ∀ r ∈ stableEnv.extract t,
      ∃ s, s ≤ 0 ∧ ∃ r2 ∈ stableEnv.extract s, hashRow r2 = hashRow r :=
    fun _ _ r hr => ⟨0, Nat.le_refl 0, r, hr, rfl⟩
  have h2 : ∀ t, stableEnv.atBottom t = false := fun _ => rfl
  have h3 : ∀ t, stableEnv.cancelledFlag t = false := fun _ => rfl
  exact ⟨h1, h2, h3, claim5_scroll_convergence stableEnv 0 h1 h2 h3⟩

lemma collectLoop_cancelled_shape (env : ScrollEnv) :
    ∀ fuel st stc, (collectLoop env fuel st).2 = .cancelledOutcome stc →
      ∃ evs, (collectLoop env fuel st).1 = evs ++ [⟨0, stc.rows.length, .cancelled, none⟩] ∧
        ∀ e ∈ evs, e.status = .scrolling := by
  intro fuel
  induction fuel with
  | zero => intro st stc h; simp [collectLoop] at h
  | succ fuel ih =>
    intro st stc h
    rw [collectLoop] at h ⊢
    by_cases hg : st.attempts < MAX_SCROLL_ATTEMPTS ∧ st.noNewRows < MAX_NO_NEW_ROWS_ATTEMPTS
    · rw [if_pos hg] at h ⊢
      by_cases hc : env.cancelledFlag st.attempts
      · rw [if_pos hc] at h ⊢
        dsimp only at h ⊢
        obtain rfl : st = stc := by injection h
        exact ⟨[], rfl, by simp⟩
      · rw [if_neg hc] at h ⊢
        dsimp only at h ⊢
        by_cases hb : env.atBottom (st.attempts + 1)
        · rw [if_pos hb] at h
          simp at h
        · rw [if_neg hb] at h ⊢
          dsimp only at h ⊢
          obtain ⟨evs, he, hs⟩ := ih _ stc h
          refine ⟨⟨min SCROLL_PROGRESS_CAP (env.rawProgress (st.attempts + 1)),
            (mergeGrid st.rows (env.extract (st.attempts + 1))).length, .scrolling, none⟩ :: evs,
            by rw [he]; rfl, ?_⟩
          intro e hm
          rcases List.mem_cons.mp hm with rfl | hm2
          · rfl
          · exact hs e hm2
    · rw [if_neg hg] at h
      simp at h

lemma collectLoop_cancelled_attempts (env : ScrollEnv) (k : Nat)
    (hc : ∀ t, env.cancelledFlag t = decide (k ≤ t)) :
    ∀ fuel st stc, st.attempts ≤ k → (collectLoop env fuel st).2 = .cancelledOutcome stc →
      stc.attempts = k := by
  intro fuel
  induction fuel with
  | zero => intro st stc _ h; simp [collectLoop] at h
  | succ fuel ih =>
    intro st stc hle h
    rw [collectLoop] at h
    by_cases hg : st.attempts < MAX_SCROLL_ATTEMPTS ∧ st.noNewRows < MAX_NO_NEW_ROWS_ATTEMPTS
    · rw [if_pos hg] at h
      by_cases hck : k ≤ st.attempts
      · rw [hc st.attempts, decide_eq_true hck] at h
        rw [if_pos rfl] at h
        dsimp only at h
        obtain rfl : st = stc := by injection h
        omega
      · rw [hc st.attempts, decide_eq_false hck] at h
        rw [if_neg (by simp)] at h
        dsimp only at h
        by_cases hb : env.atBottom (st.attempts + 1)
        · rw [if_pos hb] at h
          simp at h
        · rw [if_neg hb] at h
          dsimp only at h
          by_cases hsz : (mergeGrid st.rows (env.extract (st.attempts + 1))).length
              = st.lastRowCount
          · rw [if_pos hsz] at h
            exact ih _ stc (by dsimp only; omega) h
          · rw [if_neg hsz] at h
            exact ih _ stc (by dsimp only; omega) h
    · rw [if_neg hg] at h
      simp at h

lemma collectLoop_counts_chain (env : ScrollEnv) :
    ∀ fuel st, List.Chain' (· ≤ ·)
      (st.rows.length :: ((collectLoop env fuel st).1.map (fun e => e.rowsCollected))) := by
  intro fuel
  induction fuel with
  | zero => intro st; simp [collectLoop]
  | succ fuel ih =>
    intro st
    rw [collectLoop]
    by_cases hg : st.attempts < MAX_SCROLL_ATTEMPTS ∧ st.noNewRows < MAX_NO_NEW_ROWS_ATTEMPTS
    · rw [if_pos hg]
      by_cases hc : env.cancelledFlag st.attempts
      · rw [if_pos hc]
        simp
      · rw [if_neg hc]
        dsimp only
        have hmono : st.rows.length ≤
            (mergeGrid st.rows (env.extract (st.attempts + 1))).length := by
          rw [length_eq_keysOf st.rows, length_eq_keysOf, keysOf_mergeGrid]
          exact length_le_addKeys _ _
        by_cases hb : env.atBottom (st.attempts + 1)
        · rw [if_pos hb]
          simp [hmono]
        · rw [if_neg hb]
          dsimp only
          by_cases hsz : (mergeGrid st.rows (env.extract (st.attempts + 1))).length
              = st.lastRowCount
          · rw [if_pos hsz]
            simp only [List.map_cons, List.chain'_cons]
            exact ⟨hmono, ih ⟨mergeGrid st.rows (env.extract (st.attempts + 1)),
              st.lastRowCount, st.noNewRows + 1, st.attempts + 1⟩⟩
          · rw [if_neg hsz]
            simp only [List.map_cons, List.chain'_cons]
            exact ⟨hmono, ih ⟨mergeGrid st.rows (env.extract (st.attempts + 1)),
              (mergeGrid st.rows (env.extract (st.attempts + 1))).length, 0, st.attempts + 1⟩⟩
    · rw [if_neg hg]
      simp

/-- C6 (amended): if the cancellation flag rises at step k of a collection
run and the loop is cancelled, then the loop is cancelled at the very next
loop-top check (the recorded attempt count is exactly k), the final loop
event is a cancelled update carrying the row count collected so far and
every earlier loop event is a collecting update (so no collecting update
follows the cancellation), and the run yields no complete outcome; the
cancellation however reaches the download orchestration as a thrown
ordinary error, whose generic handler appends a terminal error-status
update after the cancelled update. -/
theorem claim6_amended_cancellation (env : ScrollEnv) (k : Nat)
    (hc : ∀ t, env.cancelledFlag t = decide (k ≤ t))
    (clean : List (List String) → List (List String)) (stc : ScrollState)
    (hout : (scrollAndCollectRows env).2 = .cancelledOutcome stc) :
    stc.attempts = k ∧
    (∃ evs, (scrollAndCollectRows env).1 =
        evs ++ [⟨0, stc.rows.length, .cancelled, none⟩] ∧
      ∀ e ∈ evs, e.status = .scrolling) ∧
    handleFullDownloadEvents env clean =
      (scrollAndCollectRows env).1 ++ [⟨0, 0, .errorStatus, some "Download cancelled"⟩] ∧
    ∀ e ∈ handleFullDownloadEvents env clean, e.status ≠ .complete := by
  have h1 : stc.attempts = k :=
    collectLoop_cancelled_attempts env k hc MAX_SCROLL_ATTEMPTS _ stc (Nat.zero_le k) hout
  obtain ⟨evs, hevs, hst⟩ := collectLoop_cancelled_shape env MAX_SCROLL_ATTEMPTS _ stc hout
  have hevs2 : (scrollAndCollectRows env).1 =
      evs ++ [⟨0, stc.rows.length, .cancelled, none⟩] := hevs
  have hsplit : scrollAndCollectRows env =
      ((scrollAndCollectRows env).1, .cancelledOutcome stc) := by
    rw [← hout]
  have h3 : handleFullDownloadEvents env clean =
      (scrollAndCollectRows env).1 ++ [⟨0, 0, .errorStatus, some "Download cancelled"⟩] := by
    rw [handleFullDownloadEvents, hsplit]
  refine ⟨h1, ⟨evs, hevs2, hst⟩, h3, ?_⟩
  intro e he
  rw [h3] at he
  rcases List.mem_append.mp he with hm | hm
  · rw [hevs2] at hm
    rcases List.mem_append.mp hm with hm2 | hm2
    · rw [hst e hm2]
      simp
    · simp only [List.mem_singleton] at hm2
      subst hm2
      simp
  · simp only [List.mem_singleton] at hm
    subst hm
    simp

/-- Witness for the amended C6: the theorem applied to the concrete
cancelled environment, whose flag rises at step one. -/
theorem claim6_amended_witness :
    ((∀ t, cancelEnv.cancelledFlag t = decide (1 ≤ t)) ∧
      (scrollAndCollectRows cancelEnv).2 = .cancelledOutcome cancelState) ∧
    (cancelState.attempts = 1 ∧
      (∃ evs, (scrollAndCollectRows cancelEnv).1 =
          evs ++ [⟨0, cancelState.rows.length, .cancelled, none⟩] ∧
        ∀ e ∈ evs, e.status = .scrolling) ∧
      handleFullDownloadEvents cancelEnv cleanDividendData =
        (scrollAndCollectRows cancelEnv).1 ++
          [⟨0, 0, .errorStatus, some "Download cancelled"⟩] ∧
      ∀ e ∈ handleFullDownloadEvents cancelEnv cleanDividendData, e.status ≠ .complete) :=
  ⟨⟨fun _ => rfl, by decide⟩,
    claim6_amended_cancellation cancelEnv 1 (fun _ => rfl) cleanDividendData cancelState
      (by decide)⟩

/-- C7 (amended): within one collection run the row counts of the progress
events of the scroll loop (the collecting updates and a possible final
cancelled update) are monotonically non-decreasing, and in the full event
trace of the download orchestration the collecting updates by themselves
carry non-decreasing row counts; the terminal complete update instead
reports the post-filtering and post-cleaning row count, which may lie below
the last collecting count. -/
theorem claim7_amended_monotonicity (env : ScrollEnv)
    (clean : List (List String) → List (List String)) :
    List.Chain' (· ≤ ·) ((scrollAndCollectRows env).1.map (fun e => e.rowsCollected)) ∧
    List.Pairwise (· ≤ ·)
      (((handleFullDownloadEvents env clean).filter
          (fun e => e.status == DownloadStatus.scrolling)).map (fun e => e.rowsCollected)) := by
  have hch : List.Chain' (· ≤ ·)
      ((scrollAndCollectRows env).1.map (fun e => e.rowsCollected)) := by
    have h := collectLoop_counts_chain env MAX_SCROLL_ATTEMPTS
      ⟨mergeGrid [] (env.extract 0), (mergeGrid [] (env.extract 0)).length, 0, 0⟩
    exact h.tail
  refine ⟨hch, ?_⟩
  have hterm : ∃ t : ProgressEvent, t.status ≠ DownloadStatus.scrolling ∧
      handleFullDownloadEvents env clean = (scrollAndCollectRows env).1 ++ [t] := by
    rcases hout : scrollAndCollectRows env with ⟨evs, out⟩
    cases out with
    | cancelledOutcome stc =>
      refine ⟨⟨0, 0, .errorStatus, some "Download cancelled"⟩, by simp, ?_⟩
      rw [handleFullDownloadEvents, hout]
    | finished stf =>
      refine ⟨⟨100, (clean ((stf.rows.map (fun p => p.2)).filter
          (fun row => row.any (fun cell => cell ≠ "")))).length, .complete, none⟩, by simp, ?_⟩
      rw [handleFullDownloadEvents, hout]
  obtain ⟨t, hts, hte⟩ := hterm
  have hfeq : (handleFullDownloadEvents env clean).filter
      (fun e => e.status == DownloadStatus.scrolling) =
      (scrollAndCollectRows env).1.filter (fun e => e.status == DownloadStatus.scrolling) := by
    rw [hte, List.filter_append]
    have hpt : (t.status == DownloadStatus.scrolling) = false := by
      simpa using hts
    simp [List.filter_cons, hpt]
  rw [hfeq]
  have hpw : List.Pairwise (· ≤ ·)
      ((scrollAndCollectRows env).1.map (fun e => e.rowsCollected)) :=
    List.chain'_iff_pairwise.mp hch
  exact hpw.sublist (List.Sublist.map _ (List.filter_sublist _))

/-- Witness for C10: a dividend grid whose kept header cells are `Ex Date`
and `Note`, neither of which satisfies the amount matcher. -/
theorem claim10_witness :
    (∀ c ∈ filterCols (columnsToKeep ["Ex Date", "Note"] [["2024-01-15", "x"]])
        ["Ex Date", "Note"], isAmountColumn c = false) ∧
    ((cleanDividendData (["Ex Date", "Note"] :: [["2024-01-15", "x"]])).length =
        [["2024-01-15", "x"]].length + 1 ∧
      (∀ row ∈ (cleanDividendData (["Ex Date", "Note"] :: [["2024-01-15", "x"]])).tail,
        row.getD 1 "" = "") ∧
      ((cleanDividendData (["Ex Date", "Note"] :: [["2024-01-15", "x"]])).headD []).take 2 =
        ["ex_date", "amount"]) :=
  ⟨by decide, claim10_unmatched_amount ["Ex Date", "Note"] [["2024-01-15", "x"]] (by decide)⟩

lemma toLower_eq_self_of_not {c : Char} (h : ¬(65 ≤ c.toNat ∧ c.toNat ≤ 90)) :
    Char.toLower c = c := by
  rw [Char.toLower]
  exact if_neg h

lemma toNat_toLower_of {c : Char} (h : 65 ≤ c.toNat ∧ c.toNat ≤ 90) :
    (Char.toLower c).toNat = c.toNat + 32 := by
  rw [Char.toLower, if_pos h]
  have hv : (c.toNat + 32).isValidChar := Or.inl (by omega)
  rw [Char.ofNat, dif_pos hv]
  rfl

lemma isUpper_iff_toNat (c : Char) : c.isUpper = true ↔ 65 ≤ c.toNat ∧ c.toNat ≤ 90 := by
  simp [Char.isUpper, UInt32.le_def, BitVec.le_def]
  rfl

lemma toLower_not_upperRange (c : Char) :
    ¬(65 ≤ (Char.toLower c).toNat ∧ (Char.toLower c).toNat ≤ 90) := by
  by_cases h : 65 ≤ c.toNat ∧ c.toNat ≤ 90
  · rw [toNat_toLower_of h]
    omega
  · rw [toLower_eq_self_of_not h]
    exact h

lemma isUpper_toLower_false (c : Char) : (Char.toLower c).isUpper = false := by
  rw [← Bool.not_eq_true, isUpper_iff_toNat]
  exact toLower_not_upperRange c

lemma toLower_eq_self_of_not_upper {c : Char} (h : c.isUpper = false) :
    Char.toLower c = c := by
  apply toLower_eq_self_of_not
  rw [← isUpper_iff_toNat, h]
  simp

lemma splitChar_ne_nil (l : List Char) : splitChar l ≠ [] := by
  induction l with
  | nil => simp [splitChar]
  | cons c rest ih =>
    rw [splitChar]
    by_cases h : jsIsSpace c
    · simp [h]
    · simp only [h, Bool.false_eq_true, if_false]
      cases hs : splitChar rest with
      | nil => simp
      | cons s ss => simp

lemma splitChar_sound (l : List Char) :
    ∀ w ∈ splitChar l, ∀ c ∈ w, c ∈ l ∧ jsIsSpace c = false := by
  induction l with
  | nil =>
    intro w hw c hc
    simp [splitChar] at hw
    subst hw
    simp at hc
  | cons a rest ih =>
    intro w hw c hc
    rw [splitChar] at hw
    by_cases h : jsIsSpace a
    · simp only [h, if_true] at hw
      rcases List.mem_cons.mp hw with rfl | hw2
      · simp at hc
      · obtain ⟨h1, h2⟩ := ih w hw2 c hc
        exact ⟨List.mem_cons_of_mem a h1, h2⟩
    · simp only [h, Bool.false_eq_true, if_false] at hw
      cases hs : splitChar rest with
      | nil => exact absurd hs (splitChar_ne_nil rest)
      | cons s ss =>
        rw [hs] at hw
        rcases List.mem_cons.mp hw with rfl | hw2
        · rcases List.mem_cons.mp hc with rfl | hc2
          · exact ⟨List.mem_cons_self c rest, by simpa using h⟩
          · obtain ⟨h1, h2⟩ := ih s (hs ▸ List.mem_cons_self s ss) c hc2
            exact ⟨List.mem_cons_of_mem a h1, h2⟩
        · obtain ⟨h1, h2⟩ := ih w (hs ▸ List.mem_cons_of_mem s hw2) c hc
          exact ⟨List.mem_cons_of_mem a h1, h2⟩

lemma jsWords_sound (l : List Char) :
    ∀ w ∈ jsWords l, w ≠ [] ∧ ∀ c ∈ w, c ∈ l ∧ jsIsSpace c = false := by
  intro w hw
  simp only [jsWords, List.mem_filter, Bool.not_eq_eq_eq_not, Bool.not_false,
    List.isEmpty_eq_true] at hw
  refine ⟨by simpa using hw.2, fun c hc => splitChar_sound l w hw.1 c hc⟩

lemma mem_setAdd {l : List (List Char)} {x y : List Char} :
    x ∈ setAdd l y ↔ x ∈ l ∨ x = y := by
  by_cases h : y ∈ l
  · simp only [setAdd, if_pos h]
    constructor
    · exact Or.inl
    · rintro (hx | rfl)
      · exact hx
      · exact h
  · simp [setAdd, if_neg h]

lemma mem_foldl_setAdd (l : List (List Char)) :
    ∀ acc x, x ∈ l.foldl setAdd acc ↔ x ∈ acc ∨ x ∈ l := by
  induction l with
  | nil => intro acc x; simp
  | cons w rest ih =>
    intro acc x
    simp only [List.foldl_cons]
    rw [ih (setAdd acc w) x, mem_setAdd]
    simp only [List.mem_cons]
    tauto

lemma mem_listToSet {l : List (List Char)} {x : List Char} :
    x ∈ listToSet l ↔ x ∈ l := by
  rw [listToSet, mem_foldl_setAdd]
  simp

lemma nodup_foldl_setAdd (l : List (List Char)) :
    ∀ acc, acc.Nodup → (l.foldl setAdd acc).Nodup := by
  induction l with
  | nil => intro acc h; simpa
  | cons w rest ih =>
    intro acc h
    simp only [List.foldl_cons]
    apply ih
    by_cases hw : w ∈ acc
    · simpa [setAdd, hw]
    · simp [setAdd, hw, List.nodup_append, h]

lemma nodup_listToSet (l : List (List Char)) : (listToSet l).Nodup :=
  nodup_foldl_setAdd l [] List.nodup_nil

lemma foldl_setAdd_eq_append (l : List (List Char)) :
    ∀ acc, l.Nodup → (∀ x ∈ l, x ∉ acc) → l.foldl setAdd acc = acc ++ l := by
  induction l with
  | nil => intro acc _ _; simp
  | cons w rest ih =>
    intro acc hnd hdis
    simp only [List.foldl_cons]
    have hw : w ∉ acc := hdis w (List.mem_cons_self w rest)
    rw [show setAdd acc w = acc ++ [w] from if_neg hw]
    rw [ih (acc ++ [w]) (List.Nodup.of_cons hnd) ?_]
    · simp
    · intro x hx
      simp only [List.mem_append, List.mem_singleton]
      rintro (hx2 | rfl)
      · exact hdis x (List.mem_cons_of_mem w hx) hx2
      · exact (List.nodup_cons.mp hnd).1 hx

lemma listToSet_eq_self {l : List (List Char)} (h : l.Nodup) : listToSet l = l := by
  rw [listToSet, foldl_setAdd_eq_append l [] h (by simp)]
  simp

lemma camelSplit_eq_self {l : List Char} (h : ∀ c ∈ l, c.isUpper = false) :
    camelSplit l = l := by
  induction l with
  | nil => rfl
  | cons c1 rest ih =>
    cases rest with
    | nil => rfl
    | cons c2 rest2 =>
      rw [camelSplit]
      have h2 : c2.isUpper = false := h c2 (List.mem_cons_of_mem c1 (List.mem_cons_self c2 rest2))
      rw [h2]
      simp only [Bool.and_false, Bool.false_eq_true, if_false]
      rw [ih fun c hc => h c (List.mem_cons_of_mem c1 hc)]

lemma map_eq_self_of {α : Type} {f : α → α} {l : List α} (h : ∀ c ∈ l, f c = c) :
    l.map f = l := by
  induction l with
  | nil => rfl
  | cons c rest ih =>
    simp only [List.map_cons]
    rw [h c (List.mem_cons_self c rest), ih fun x hx => h x (List.mem_cons_of_mem c hx)]

lemma mem_joinL {ts : List (List Char)} {c : Char} (h : c ∈ joinL ts) :
    c = ' ' ∨ ∃ w ∈ ts, c ∈ w := by
  induction ts with
  | nil => simp [joinL] at h
  | cons w ws ih =>
    cases ws with
    | nil =>
      simp only [joinL] at h
      exact Or.inr ⟨w, List.mem_cons_self w [], h⟩
    | cons w2 ws2 =>
      rw [joinL] at h
      rcases List.mem_append.mp h with hm | hm
      · exact Or.inr ⟨w, List.mem_cons_self _ _, hm⟩
      · rcases List.mem_cons.mp hm with rfl | hm2
        · exact Or.inl rfl
        · rcases ih hm2 with hsp | ⟨w3, hw3, hc3⟩
          · exact Or.inl hsp
          · exact Or.inr ⟨w3, List.mem_cons_of_mem w hw3, hc3⟩

lemma splitChar_append_nonspace (w : List Char) (hw : ∀ c ∈ w, jsIsSpace c = false) :
    ∀ l, splitChar (w ++ l) =
      (w ++ (splitChar l).headD []) :: (splitChar l).tail := by
  induction w with
  | nil =>
    intro l
    cases hs : splitChar l with
    | nil => exact absurd hs (splitChar_ne_nil l)
    | cons s ss => simp [hs]
  | cons c w2 ih =>
    intro l
    have hc : jsIsSpace c = false := hw c (List.mem_cons_self c w2)
    have ih2 := ih (fun x hx => hw x (List.mem_cons_of_mem c hx)) l
    simp only [List.cons_append]
    rw [splitChar, hc]
    simp only [Bool.false_eq_true, if_false]
    rw [ih2]

lemma splitChar_space_cons (l : List Char) : splitChar (' ' :: l) = [] :: splitChar l := by
  rw [splitChar]
  simp [jsIsSpace]

lemma jsWords_joinL (ts : List (List Char))
    (h : ∀ w ∈ ts, w ≠ [] ∧ ∀ c ∈ w, jsIsSpace c = false) : jsWords (joinL ts) = ts := by
  induction ts with
  | nil => simp [joinL, jsWords, splitChar]
  | cons w ws ih =>
    have hw := h w (List.mem_cons_self w ws)
    cases ws with
    | nil =>
      simp only [joinL]
      rw [jsWords, show (w : List Char) = w ++ [] by simp,
        splitChar_append_nonspace w hw.2 []]
      simp [splitChar, hw.1]
    | cons w2 ws2 =>
      rw [joinL, jsWords, splitChar_append_nonspace w hw.2 (' ' :: joinL (w2 :: ws2)),
        splitChar_space_cons]
      simp only [List.headD_cons, List.tail_cons, List.append_nil]
      rw [List.filter_cons]
      have hne : (!w.isEmpty) = true := by
        simp [List.isEmpty_eq_true, hw.1]
      rw [if_pos hne]
      have ih2 := ih fun x hx => h x (List.mem_cons_of_mem w hx)
      rw [jsWords] at ih2
      rw [ih2]

lemma tokenizeL_token_chars (l : List Char) :
    ∀ w ∈ tokenizeL l, w ≠ [] ∧ ∀ c ∈ w,
      jsIsSpace c = false ∧ c.isUpper = false ∧ Char.toLower c = c ∧ dashSpace c = c := by
  intro w hw
  have hwords : w ∈ jsWords (((camelSplit l).map Char.toLower).map dashSpace) :=
    mem_listToSet.mp hw
  obtain ⟨hne, hchars⟩ := jsWords_sound _ w hwords
  refine ⟨hne, fun c hc => ?_⟩
  obtain ⟨hmem, hsp⟩ := hchars c hc
  obtain ⟨y, _, rfl⟩ := List.mem_map.mp hmem
  obtain ⟨x, _, rfl⟩ := List.mem_map.mp (by assumption : y ∈ (camelSplit l).map Char.toLower)
  have hup : (dashSpace (Char.toLower x)).isUpper = false := by
    by_cases hd : isDashU (Char.toLower x)
    · simp only [dashSpace, if_pos hd]
      decide
    · simp only [dashSpace, if_neg hd]
      exact isUpper_toLower_false x
  have hfix : Char.toLower (dashSpace (Char.toLower x)) = dashSpace (Char.toLower x) :=
    toLower_eq_self_of_not_upper hup
  have hdfix : dashSpace (dashSpace (Char.toLower x)) = dashSpace (Char.toLower x) := by
    by_cases hd : isDashU (Char.toLower x)
    · simp only [dashSpace, if_pos hd]
      decide
    · simp only [dashSpace, if_neg hd, if_neg hd]
  exact ⟨hsp, hup, hfix, hdfix⟩

lemma tokenizeL_idem (l : List Char) : tokenizeL (joinL (tokenizeL l)) = tokenizeL l := by
  have htok := tokenizeL_token_chars l
  have hjoin : ∀ c ∈ joinL (tokenizeL l),
      c.isUpper = false ∧ Char.toLower c = c ∧ dashSpace c = c := by
    intro c hc
    rcases mem_joinL hc with rfl | ⟨w, hw, hcw⟩
    · refine ⟨by decide, ?_, by decide⟩
      apply toLower_eq_self_of_not
      decide
    · obtain ⟨_, hprops⟩ := htok w hw
      obtain ⟨_, h1, h2, h3⟩ := hprops c hcw
      exact ⟨h1, h2, h3⟩
  have h1 : camelSplit (joinL (tokenizeL l)) = joinL (tokenizeL l) :=
    camelSplit_eq_self fun c hc => (hjoin c hc).1
  have h2 : (joinL (tokenizeL l)).map Char.toLower = joinL (tokenizeL l) :=
    map_eq_self_of fun c hc => (hjoin c hc).2.1
  have h3 : (joinL (tokenizeL l)).map dashSpace = joinL (tokenizeL l) :=
    map_eq_self_of fun c hc => (hjoin c hc).2.2
  have h4 : jsWords (joinL (tokenizeL l)) = tokenizeL l :=
    jsWords_joinL (tokenizeL l) fun w hw =>
      ⟨(htok w hw).1, fun c hc => ((htok w hw).2 c hc).1⟩
  rw [tokenizeL, h1, h2, h3, h4]
  exact listToSet_eq_self (nodup_listToSet _)

lemma jsJoin_data (ts : List (List Char)) :
    (jsJoin " " (ts.map String.mk)).data = joinL ts := by
  induction ts with
  | nil => rfl
  | cons w ws ih =>
    cases ws with
    | nil => rfl
    | cons w2 ws2 =>
      simp only [List.map_cons, jsJoin, joinL] at ih ⊢
      rw [String.data_append, String.data_append, ih,
        show (" " : String).data = [' '] from rfl, List.append_assoc]
      rfl

/-- C9: tokenizer idempotence.  For every input string, tokenizing the
space-joined token list of the string yields exactly the same token list
(hence the same token set) as tokenizing the string directly. -/
theorem claim9_tokenize_idempotent (s : String) :
    tokenize (jsJoin " " (tokenize s)) = tokenize s := by
  have hd : (jsJoin " " (tokenize s)).data = joinL (tokenizeL s.data) := by
    rw [tokenize]
    exact jsJoin_data (tokenizeL s.data)
  show (tokenizeL (jsJoin " " (tokenize s)).data).map String.mk = tokenize s
  rw [hd, tokenizeL_idem]
  rfl
